import Mathlib

/-!
Verification of the TAL-Drum preset generator core
(`common.py` / `generate.py`) against its specification.

The Python source is shallowly embedded: strings are `List Char`
(written `SPath` for file paths), dictionaries that rely on insertion
order are association lists, `None`-able values are `Option`, and the
mutable `note_to_samples` dict of the assignment engine is a total
function `Int → List SPath` (every push in the source appends a
non-empty chunk, so presence of a key coincides with a non-empty list).
Python's stable `sorted(..., key=...)` is embedded as a stable insertion
sort by the same key.
-/

set_option maxRecDepth 4000

/-- `LAYER_LIMIT_PER_PAD` from `common.py`. -/
def LAYER_LIMIT_PER_PAD : Nat := 8

/-- File paths are modelled as raw character lists. -/
abbrev SPath := List Char

-- ============================================================
-- Velocity ranges (`generate.py`, `velocity_ranges`)
-- ============================================================

/-- The fix-up pass of `velocity_ranges`: walk the list and force each
band's start to be exactly one more than the (already fixed-up)
previous band's end. -/
def fixupRanges (prev : Nat × Nat) : List (Nat × Nat) → List (Nat × Nat)
  | [] => []
  | (s, e) :: rs =>
    let r := if s ≠ prev.2 + 1 then (prev.2 + 1, e) else (s, e)
    r :: fixupRanges r rs

/-- `velocity_ranges(n_layers)` from `generate.py`: band `i` is
`(floor(i*127/n)+1, floor((i+1)*127/n))`, the last band's end forced to
127, followed by the contiguity fix-up pass.  (For the arguments in
range the Python float arithmetic `i * 127 / n` is exact, so
`math.floor` coincides with natural division.) -/
def velocity_ranges (n_layers : Nat) : List (Nat × Nat) :=
  if n_layers = 0 then []
  else
    let base := (List.range n_layers).map fun i =>
      (i * 127 / n_layers + 1,
       if i = n_layers - 1 then 127 else (i + 1) * 127 / n_layers)
    match base with
    | [] => []
    | r :: rs => r :: fixupRanges r rs

/-- The velocity attributes written by `set_pad_layers` for layer `i`
of a pad holding `n` layers: `(velocitystart?, velocityend?)`.  Mirrors
the branch structure at the end of `set_pad_layers`: a single layer gets
no bounds, the first layer only an end, the last layer only a start,
middle layers both. -/
def layer_velocity_attrs (n i : Nat) : Option Nat × Option Nat :=
  let r := (velocity_ranges n).getD i (0, 0)
  if n = 1 then (none, none)
  else if i = 0 then (none, some r.2)
  else if i = n - 1 then (some r.1, none)
  else (some r.1, some r.2)

-- ============================================================
-- Filename sanitizing (`generate.py`, `sanitize_filename`)
-- ============================================================

/-- Python's `\s` (ASCII range), used by `strip()` and the `\s+`
regular expression. -/
def pyIsSpace (c : Char) : Bool :=
  c = ' ' ∨ c = '\t' ∨ c = '\n' ∨ c = '\x0d' ∨ c = '\x0b' ∨ c = '\x0c'

/-- The characters the sanitizer bans: `\ / : * ? " < > |`. -/
def isBannedChar (c : Char) : Bool :=
  c = '\\' ∨ c = '/' ∨ c = ':' ∨ c = '*' ∨ c = '?' ∨ c = '\x22' ∨
    c = '<' ∨ c = '>' ∨ c = '|'

/-- `str.strip()`: drop leading and trailing whitespace. -/
def pyStrip (l : List Char) : List Char :=
  ((l.dropWhile pyIsSpace).reverse.dropWhile pyIsSpace).reverse

/-- Worker for `subRuns`: `inRun` records whether the previous
character was part of a run already replaced by `rep`. -/
def subRunsGo (p : Char → Bool) (rep : Char) : Bool → List Char → List Char
  | _, [] => []
  | inRun, x :: xs =>
    if p x then
      if inRun then subRunsGo p rep true xs
      else rep :: subRunsGo p rep true xs
    else x :: subRunsGo p rep false xs

/-- `re.sub(class+, rep, s)` for a single-character class: replace
every maximal run of `p`-characters by the single character `rep`. -/
def subRuns (p : Char → Bool) (rep : Char) (l : List Char) : List Char :=
  subRunsGo p rep false l

/-- The strip/substitute pipeline of `sanitize_filename` before the
`or "UNTITLED"` default. -/
def sanitizeCore (name : List Char) : List Char :=
  pyStrip (subRuns pyIsSpace ' ' (subRuns isBannedChar '_' (pyStrip name)))

/-- `sanitize_filename` from `generate.py`. -/
def sanitize_filename (name : List Char) : List Char :=
  let w := sanitizeCore name
  if w = [] then "UNTITLED".toList else w

-- ============================================================
-- Ordering rule (`common.py`: `extract_trailing_index`,
-- `sort_samples_by_trailing_number`)
-- ============================================================

/-- `str.split(c)` on a character list. -/
def splitOnChar (c : Char) : List Char → List (List Char)
  | [] => [[]]
  | x :: xs =>
    match splitOnChar c xs with
    | [] => [[]]
    | h :: t => if x = c then [] :: h :: t else (x :: h) :: t

/-- Decimal value of a digit run. -/
def natOfDigits (ds : List Char) : Nat :=
  ds.foldl (fun a c => a * 10 + (c.toNat - 48)) 0

/-- Index of the last `.` in a name, if any. -/
def lastDotIdx (name : List Char) : Option Nat :=
  ((List.range name.length).filter (fun i => decide (name[i]? = some '.'))).getLast?

/-- `pathlib.Path(p).stem`: the final path component without its last
extension (the suffix exists only when the last dot is neither the
first nor the last character of the component). -/
def pyStem (p : List Char) : List Char :=
  let name := ((splitOnChar '/' p).getLast?).getD []
  match lastDotIdx name with
  | some i => if 0 < i ∧ i + 1 < name.length then name.take i else name
  | none => name

/-- `extract_trailing_index` from `common.py`: the regular expression
`\s(\d+)$` matches exactly when the maximal trailing digit run is
non-empty and the character just before it is whitespace. -/
def extract_trailing_index (stem : List Char) : Option Nat :=
  let ds := (stem.reverse.takeWhile Char.isDigit).reverse
  if ds.isEmpty then none
  else
    match (stem.take (stem.length - ds.length)).getLast? with
    | some c => if pyIsSpace c then some (natOfDigits ds) else none
    | none => none

/-- `str.lower()`. -/
def lowerList (l : List Char) : List Char := l.map Char.toLower

/-- The Python sort key `(0, idx)` / `(1, stem.lower())` of
`sort_samples_by_trailing_number`. -/
inductive SKey where
  | idx (n : Nat)
  | name (s : List Char)
deriving DecidableEq, Repr

/-- Python string `≤` (lexicographic by code point). -/
def strLe : List Char → List Char → Bool
  | [], _ => true
  | _ :: _, [] => false
  | a :: as, b :: bs =>
    if a.toNat = b.toNat then strLe as bs else decide (a.toNat < b.toNat)

/-- Python tuple comparison on sort keys: every `(0, _)` precedes every
`(1, _)`; numeric tie-break on indices, lexicographic on names. -/
def keyLe : SKey → SKey → Bool
  | .idx a, .idx b => decide (a ≤ b)
  | .idx _, .name _ => true
  | .name _, .idx _ => false
  | .name s, .name t => strLe s t

/-- The `key` function of `sort_samples_by_trailing_number`. -/
def sampleKey (p : SPath) : SKey :=
  match extract_trailing_index (pyStem p) with
  | some i => .idx i
  | none => .name (lowerList (pyStem p))

/-- Stable insertion: place `x` before the first element it is `le` to.
Together with `sortLe` this is the unique stable ascending sort by
`le`, i.e. the embedding of Python's stable `sorted(..., key=...)`. -/
def insertLe {α : Type} (le : α → α → Bool) (x : α) : List α → List α
  | [] => [x]
  | y :: ys => if le x y then x :: y :: ys else y :: insertLe le x ys

/-- Stable insertion sort. -/
def sortLe {α : Type} (le : α → α → Bool) : List α → List α
  | [] => []
  | x :: xs => insertLe le x (sortLe le xs)

/-- `sort_samples_by_trailing_number` from `common.py`. -/
def sort_samples_by_trailing_number (paths : List SPath) : List SPath :=
  sortLe (fun a b => keyLe (sampleKey a) (sampleKey b)) paths

-- ============================================================
-- C1 / C4: velocity-layer partition
-- ============================================================

/-- Executable check that each band starts one past the previous
band's end. -/
def bandsContiguous : List (Nat × Nat) → Bool
  | [] => true
  | [_] => true
  | a :: b :: rs => decide (b.1 = a.2 + 1) && bandsContiguous (b :: rs)

theorem bandsContiguous_iff (l : List (Nat × Nat)) :
    bandsContiguous l = true ↔ List.Chain' (fun a b => b.1 = a.2 + 1) l := by
  induction l with
  | nil => simp [bandsContiguous]
  | cons a t ih =>
    cases t with
    | nil => simp [bandsContiguous]
    | cons b rs =>
      simp only [bandsContiguous, Bool.and_eq_true, decide_eq_true_eq,
        List.chain'_cons] at *
      tauto

/-- C1: for every `N` in `1..8`, `velocity_ranges` returns exactly `N`
bands that contiguously tile `1..127`: the first band starts at 1, the
last band ends at 127, every band is non-empty, and each band's start
is one more than the previous band's end (hence no gap or overlap). -/
theorem velocity_ranges_tiles (n : Nat) (h1 : 1 ≤ n) (h2 : n ≤ 8) :
    (velocity_ranges n).length = n ∧
    ((velocity_ranges n).head?.map Prod.fst) = some 1 ∧
    ((velocity_ranges n).getLast?.map Prod.snd) = some 127 ∧
    List.Chain' (fun a b => b.1 = a.2 + 1) (velocity_ranges n) ∧
    ∀ r ∈ velocity_ranges n, r.1 ≤ r.2 := by
  rw [← bandsContiguous_iff]
  interval_cases n <;>
    exact ⟨by decide, by decide, by decide, by decide, by decide⟩

/-- Witness for C1 at `n = 3`. -/
theorem velocity_ranges_tiles_witness :
    (1 ≤ 3 ∧ 3 ≤ 8) ∧
    ((velocity_ranges 3).length = 3 ∧
     ((velocity_ranges 3).head?.map Prod.fst) = some 1 ∧
     ((velocity_ranges 3).getLast?.map Prod.snd) = some 127 ∧
     List.Chain' (fun a b => b.1 = a.2 + 1) (velocity_ranges 3) ∧
     ∀ r ∈ velocity_ranges 3, r.1 ≤ r.2) :=
  ⟨⟨by decide, by decide⟩, velocity_ranges_tiles 3 (by decide) (by decide)⟩

/-- C4 counterexample: the claim says a 2-layer pad writes layer 0 with
velocity-end 64 and layer 1 with velocity-start 65.  The code computes
`velocity_ranges 2 = [(1, 63), (64, 127)]`, so layer 0's attributes are
`(none, some 63)`, not `(none, some 64)`, and layer 1's are
`(some 64, none)`, not `(some 65, none)`. -/
theorem two_layer_attrs_cex :
    layer_velocity_attrs 2 0 ≠ (none, some 64) ∧
    layer_velocity_attrs 2 1 ≠ (some 65, none) := by
  exact ⟨by decide, by decide⟩

-- ============================================================
-- C10: sanitizer properties
-- ============================================================

theorem mem_subRunsGo (p : Char → Bool) (rep : Char) :
    ∀ (l : List Char) (b : Bool), ∀ c ∈ subRunsGo p rep b l,
      c = rep ∨ (c ∈ l ∧ p c = false) := by
  intro l
  induction l with
  | nil => intro b c hc; simp [subRunsGo] at hc
  | cons x xs ih =>
    intro b c hc
    rw [subRunsGo] at hc
    by_cases hx : p x = true
    · rw [if_pos hx] at hc
      have step : ∀ d ∈ subRunsGo p rep true xs, d = rep ∨ (d ∈ x :: xs ∧ p d = false) := by
        intro d hd
        rcases ih true d hd with h | ⟨hm, hp⟩
        · exact Or.inl h
        · exact Or.inr ⟨List.mem_cons_of_mem x hm, hp⟩
      cases b with
      | true => exact step c hc
      | false =>
        rw [if_neg Bool.false_ne_true] at hc
        rcases List.mem_cons.mp hc with h | h
        · exact Or.inl h
        · exact step c h
    · rw [if_neg hx] at hc
      rcases List.mem_cons.mp hc with h | h
      · subst h
        exact Or.inr ⟨List.mem_cons_self c xs, by simpa using hx⟩
      · rcases ih false c h with h' | ⟨hm, hp⟩
        · exact Or.inl h'
        · exact Or.inr ⟨List.mem_cons_of_mem x hm, hp⟩

theorem head?_subRunsGo_true (p : Char → Bool) (rep : Char) :
    ∀ (l : List Char), ∀ c, (subRunsGo p rep true l).head? = some c → p c = false := by
  intro l
  induction l with
  | nil => simp [subRunsGo]
  | cons x xs ih =>
    intro c hc
    rw [subRunsGo] at hc
    by_cases hx : p x = true
    · rw [if_pos hx, if_pos rfl] at hc
      exact ih c hc
    · rw [if_neg hx] at hc
      simp only [List.head?_cons, Option.some_inj] at hc
      subst hc
      simpa using hx

theorem chain'_subRunsGo (p : Char → Bool) (rep : Char) :
    ∀ (l : List Char) (b : Bool),
      List.Chain' (fun a c => p a = false ∨ p c = false) (subRunsGo p rep b l) := by
  intro l
  induction l with
  | nil => intro b; simp [subRunsGo]
  | cons x xs ih =>
    intro b
    rw [subRunsGo]
    by_cases hx : p x = true
    · rw [if_pos hx]
      cases b with
      | true => exact ih true
      | false =>
        rw [if_neg Bool.false_ne_true]
        rw [List.chain'_cons']
        refine ⟨?_, ih true⟩
        intro y hy
        exact Or.inr (head?_subRunsGo_true p rep xs y hy)
    · rw [if_neg hx]
      rw [List.chain'_cons']
      exact ⟨fun y _ => Or.inl (by simpa using hx), ih false⟩

theorem head?_dropWhile_not' (p : Char → Bool) (l : List Char) :
    ∀ c, (l.dropWhile p).head? = some c → p c = false := by
  induction l with
  | nil => simp
  | cons x xs ih =>
    intro c hc
    by_cases hx : p x = true
    · rw [List.dropWhile_cons_of_pos hx] at hc
      exact ih c hc
    · rw [List.dropWhile_cons_of_neg hx] at hc
      simp only [List.head?_cons, Option.some_inj] at hc
      subst hc
      simpa using hx

theorem mem_pyStrip (l : List Char) : ∀ c ∈ pyStrip l, c ∈ l := by
  intro c hc
  unfold pyStrip at hc
  rw [List.mem_reverse] at hc
  have h1 := (List.dropWhile_suffix (l := (l.dropWhile pyIsSpace).reverse) pyIsSpace).sublist.subset hc
  rw [List.mem_reverse] at h1
  exact (List.dropWhile_suffix (l := l) pyIsSpace).sublist.subset h1

theorem head?_pyStrip (l : List Char) :
    ∀ c, (pyStrip l).head? = some c → pyIsSpace c = false := by
  intro c hc
  unfold pyStrip at hc
  rw [List.head?_reverse] at hc
  have hXne : (l.dropWhile pyIsSpace).reverse.dropWhile pyIsSpace ≠ [] := by
    intro h; rw [h] at hc; simp at hc
  obtain ⟨pre, hpre⟩ := List.dropWhile_suffix (l := (l.dropWhile pyIsSpace).reverse) pyIsSpace
  have hlast : ((l.dropWhile pyIsSpace).reverse.dropWhile pyIsSpace).getLast? =
      ((l.dropWhile pyIsSpace).reverse).getLast? := by
    conv_rhs => rw [← hpre]
    exact (List.getLast?_append_of_ne_nil pre hXne).symm
  rw [hlast, List.getLast?_reverse] at hc
  exact head?_dropWhile_not' pyIsSpace l c hc

theorem getLast?_pyStrip (l : List Char) :
    ∀ c, (pyStrip l).getLast? = some c → pyIsSpace c = false := by
  intro c hc
  unfold pyStrip at hc
  rw [List.getLast?_reverse] at hc
  exact head?_dropWhile_not' pyIsSpace _ c hc

theorem chain'_pyStrip {R : Char → Char → Prop}
    (l : List Char) (h : List.Chain' R l) : List.Chain' R (pyStrip l) := by
  unfold pyStrip
  rw [List.chain'_reverse]
  refine List.Chain'.suffix ?_ (List.dropWhile_suffix pyIsSpace)
  rw [List.chain'_reverse]
  have hff : flip (flip R) = R := rfl
  rw [hff]
  exact h.suffix (List.dropWhile_suffix pyIsSpace)

/-- C10: for every input string, `sanitize_filename` returns a
non-empty string with none of the banned characters
`\ / : * ? " < > |`, whose whitespace characters are all plain spaces
with no two adjacent (runs collapsed), with no leading or trailing
whitespace; and when the strip/substitution pipeline leaves nothing it
returns the literal `UNTITLED`. -/
theorem sanitize_filename_spec (s : List Char) :
    sanitize_filename s ≠ [] ∧
    (∀ c ∈ sanitize_filename s, isBannedChar c = false) ∧
    (∀ c ∈ sanitize_filename s, pyIsSpace c = true → c = ' ') ∧
    List.Chain' (fun a b => ¬(a = ' ' ∧ b = ' ')) (sanitize_filename s) ∧
    (∀ c, (sanitize_filename s).head? = some c → pyIsSpace c = false) ∧
    (∀ c, (sanitize_filename s).getLast? = some c → pyIsSpace c = false) ∧
    (sanitizeCore s = [] → sanitize_filename s = "UNTITLED".toList) := by
  unfold sanitize_filename
  by_cases h : sanitizeCore s = []
  · rw [if_pos h]
    refine ⟨by decide, by decide, by decide, ?_, by decide, by decide, fun _ => rfl⟩
    have hmem : ∀ c ∈ "UNTITLED".toList, c ≠ ' ' := by decide
    refine List.Pairwise.chain' ?_
    refine List.pairwise_of_forall_mem_list ?_
    intro a ha b hb hab
    exact hmem a ha hab.1
  · rw [if_neg h]
    have hmemv : ∀ c ∈ sanitizeCore s,
        (isBannedChar c = false) ∧ (pyIsSpace c = true → c = ' ') := by
      intro c hc
      have hv := mem_pyStrip _ c hc
      rcases mem_subRunsGo pyIsSpace ' ' _ false c hv with h1 | ⟨h1, hp1⟩
      · subst h1
        exact ⟨by decide, fun _ => rfl⟩
      · rcases mem_subRunsGo isBannedChar '_' _ false c h1 with h2 | ⟨h2, hp2⟩
        · subst h2
          exact ⟨by decide, by intro hsp; simp [pyIsSpace] at hsp⟩
        · exact ⟨hp2, by intro hsp; rw [hsp] at hp1; cases hp1⟩
    refine ⟨h, fun c hc => (hmemv c hc).1, fun c hc => (hmemv c hc).2, ?_,
      head?_pyStrip _, getLast?_pyStrip _, fun hc => absurd hc h⟩
    unfold sanitizeCore
    refine chain'_pyStrip _ ?_
    refine (chain'_subRunsGo pyIsSpace ' ' _ false).imp ?_
    intro a b hab ⟨ha, hb⟩
    subst ha; subst hb
    rcases hab with h' | h' <;> simp [pyIsSpace] at h'

/-- Witness for C10: an all-whitespace input empties the pipeline and
yields the `UNTITLED` placeholder. -/
theorem sanitize_filename_spec_witness :
    sanitizeCore (" \t ".toList) = [] ∧
    sanitize_filename (" \t ".toList) = "UNTITLED".toList :=
  ⟨by decide, (sanitize_filename_spec (" \t ".toList)).2.2.2.2.2.2 (by decide)⟩

/-- C4 amended: for a pad holding exactly 2 layers the serializer
writes layer 0 with no velocity-start attribute and an explicit
velocity-end of 63, and layer 1 with an explicit velocity-start of 64
and no velocity-end attribute (`velocity_ranges 2 = [(1,63),(64,127)]`). -/
theorem two_layer_attrs :
    velocity_ranges 2 = [(1, 63), (64, 127)] ∧
    layer_velocity_attrs 2 0 = (none, some 63) ∧
    layer_velocity_attrs 2 1 = (some 64, none) := by
  exact ⟨by decide, by decide, by decide⟩

-- ============================================================
-- C8: ordering-rule properties
-- ============================================================

theorem insertLe_perm {α : Type} (le : α → α → Bool) (x : α) (l : List α) :
    (insertLe le x l).Perm (x :: l) := by
  induction l with
  | nil => exact List.Perm.refl _
  | cons y ys ih =>
    rw [insertLe]
    by_cases h : le x y = true
    · rw [if_pos h]
    · rw [if_neg h]
      exact (ih.cons y).trans (List.Perm.swap x y ys)

theorem sortLe_perm {α : Type} (le : α → α → Bool) (l : List α) :
    (sortLe le l).Perm l := by
  induction l with
  | nil => exact List.Perm.refl _
  | cons x xs ih =>
    rw [sortLe]
    exact (insertLe_perm le x (sortLe le xs)).trans (ih.cons x)

theorem mem_insertLe {α : Type} (le : α → α → Bool) (x z : α) (l : List α) :
    z ∈ insertLe le x l ↔ z = x ∨ z ∈ l := by
  rw [(insertLe_perm le x l).mem_iff]
  simp

theorem insertLe_pairwise {α : Type} (le : α → α → Bool)
    (htot : ∀ a b, le a b = true ∨ le b a = true)
    (htrans : ∀ a b c, le a b = true → le b c = true → le a c = true)
    (x : α) (l : List α) (h : List.Pairwise (fun a b => le a b = true) l) :
    List.Pairwise (fun a b => le a b = true) (insertLe le x l) := by
  induction l with
  | nil => simp [insertLe]
  | cons y ys ih =>
    rw [insertLe]
    rcases List.pairwise_cons.mp h with ⟨hy, hys⟩
    by_cases hxy : le x y = true
    · rw [if_pos hxy]
      refine List.pairwise_cons.mpr ⟨?_, h⟩
      intro z hz
      rcases List.mem_cons.mp hz with rfl | hz'
      · exact hxy
      · exact htrans x y z hxy (hy z hz')
    · rw [if_neg hxy]
      refine List.pairwise_cons.mpr ⟨?_, ih hys⟩
      intro z hz
      rcases (mem_insertLe le x z ys).mp hz with rfl | hz'
      · rcases htot z y with h' | h'
        · exact absurd h' hxy
        · exact h'
      · exact hy z hz'

theorem sortLe_pairwise {α : Type} (le : α → α → Bool)
    (htot : ∀ a b, le a b = true ∨ le b a = true)
    (htrans : ∀ a b c, le a b = true → le b c = true → le a c = true)
    (l : List α) :
    List.Pairwise (fun a b => le a b = true) (sortLe le l) := by
  induction l with
  | nil => simp [sortLe]
  | cons x xs ih =>
    rw [sortLe]
    exact insertLe_pairwise le htot htrans x _ ih

theorem insertLe_filter_key {α κ : Type} [DecidableEq κ] (key : α → κ)
    (kLe : κ → κ → Bool) (hrefl : ∀ k, kLe k k = true)
    (x : α) (l : List α) (k : κ) :
    (insertLe (fun a b => kLe (key a) (key b)) x l).filter (fun a => decide (key a = k)) =
      if key x = k then x :: l.filter (fun a => decide (key a = k))
      else l.filter (fun a => decide (key a = k)) := by
  induction l with
  | nil =>
    rw [insertLe]
    by_cases hk : key x = k
    · rw [if_pos hk]; simp [List.filter_cons, hk]
    · rw [if_neg hk]; simp [List.filter_cons, hk]
  | cons y ys ih =>
    rw [insertLe]
    by_cases hxy : kLe (key x) (key y) = true
    · rw [if_pos hxy]
      by_cases hk : key x = k
      · rw [if_pos hk]; simp [List.filter_cons, hk]
      · rw [if_neg hk]; simp [List.filter_cons, hk]
    · rw [if_neg hxy]
      have hne : key y ≠ key x := fun he => hxy (he ▸ hrefl (key x))
      have hstep : (y :: insertLe (fun a b => kLe (key a) (key b)) x ys).filter
            (fun a => decide (key a = k)) =
          (if key y = k then [y] else []) ++
            (insertLe (fun a b => kLe (key a) (key b)) x ys).filter
              (fun a => decide (key a = k)) := by
        by_cases hyk : key y = k <;> simp [List.filter_cons, hyk]
      rw [hstep, ih]
      by_cases hk : key x = k
      · rw [if_pos hk, if_pos hk]
        have hyk : ¬ (key y = k) := fun he => hne (by rw [hk, he])
        simp [List.filter_cons, hyk]
      · rw [if_neg hk, if_neg hk]
        by_cases hyk : key y = k <;> simp [List.filter_cons, hyk]

theorem sortLe_filter_key {α κ : Type} [DecidableEq κ] (key : α → κ)
    (kLe : κ → κ → Bool) (hrefl : ∀ k, kLe k k = true)
    (l : List α) (k : κ) :
    (sortLe (fun a b => kLe (key a) (key b)) l).filter (fun a => decide (key a = k)) =
      l.filter (fun a => decide (key a = k)) := by
  induction l with
  | nil => simp [sortLe]
  | cons x xs ih =>
    rw [sortLe, insertLe_filter_key key kLe hrefl]
    by_cases hk : key x = k
    · rw [if_pos hk, ih]
      simp [List.filter_cons, hk]
    · rw [if_neg hk, ih]
      simp [List.filter_cons, hk]

theorem strLe_refl : ∀ l : List Char, strLe l l = true := by
  intro l
  induction l with
  | nil => rfl
  | cons a as ih => rw [strLe, if_pos rfl]; exact ih

theorem strLe_total : ∀ l1 l2 : List Char, strLe l1 l2 = true ∨ strLe l2 l1 = true := by
  intro l1
  induction l1 with
  | nil => intro l2; left; rfl
  | cons a as ih =>
    intro l2
    cases l2 with
    | nil => right; rfl
    | cons b bs =>
      rw [strLe, strLe]
      by_cases hab : a.toNat = b.toNat
      · rw [if_pos hab, if_pos hab.symm]
        exact ih bs
      · rw [if_neg hab, if_neg (Ne.symm hab)]
        rcases Nat.lt_or_ge a.toNat b.toNat with h | h
        · left; simpa using h
        · right
          have : b.toNat < a.toNat := lt_of_le_of_ne h (Ne.symm hab)
          simpa using this

theorem strLe_trans : ∀ l1 l2 l3 : List Char,
    strLe l1 l2 = true → strLe l2 l3 = true → strLe l1 l3 = true := by
  intro l1
  induction l1 with
  | nil => intro l2 l3 _ _; rfl
  | cons a as ih =>
    intro l2 l3 h12 h23
    cases l2 with
    | nil => exact absurd h12 (by simp [strLe])
    | cons b bs =>
      cases l3 with
      | nil => exact absurd h23 (by simp [strLe])
      | cons c cs =>
        rw [strLe] at h12 h23 ⊢
        by_cases hab : a.toNat = b.toNat
        · rw [if_pos hab] at h12
          by_cases hbc : b.toNat = c.toNat
          · rw [if_pos hbc] at h23
            rw [if_pos (hab.trans hbc)]
            exact ih bs cs h12 h23
          · rw [if_neg hbc] at h23
            rw [if_neg (hab ▸ hbc), hab]
            exact h23
        · rw [if_neg hab] at h12
          by_cases hbc : b.toNat = c.toNat
          · rw [if_neg (hbc ▸ hab), ← hbc]
            exact h12
          · rw [if_neg hbc] at h23
            simp only [decide_eq_true_eq] at h12 h23
            have hac : a.toNat < c.toNat := h12.trans h23
            rw [if_neg (Nat.ne_of_lt hac)]
            simpa using hac

theorem keyLe_refl : ∀ k : SKey, keyLe k k = true := by
  intro k
  cases k with
  | idx n => simp [keyLe]
  | name s => exact strLe_refl s

theorem keyLe_total : ∀ k1 k2 : SKey, keyLe k1 k2 = true ∨ keyLe k2 k1 = true := by
  intro k1 k2
  cases k1 <;> cases k2 <;> simp [keyLe] <;> first
    | omega
    | exact strLe_total _ _

theorem keyLe_trans : ∀ k1 k2 k3 : SKey,
    keyLe k1 k2 = true → keyLe k2 k3 = true → keyLe k1 k3 = true := by
  intro k1 k2 k3 h12 h23
  cases k1 <;> cases k2 <;> cases k3 <;> simp [keyLe] at * <;> first
    | omega
    | exact strLe_trans _ _ _ h12 h23

/-- C8 amended: the ordering rule is the stable ascending sort by the
key (trailing index if present, else lower-cased stem): the result is a
permutation of the input, it is sorted by `keyLe` (all indexed files in
ascending index order precede all non-indexed files, non-indexed files
in lexicographic lower-cased order), and elements with equal keys keep
their original relative order (stability) — rather than being
alphabetically reordered as the claim stated. -/
theorem sort_samples_spec (paths : List SPath) :
    (sort_samples_by_trailing_number paths).Perm paths ∧
    List.Pairwise (fun a b => keyLe (sampleKey a) (sampleKey b) = true)
      (sort_samples_by_trailing_number paths) ∧
    (∀ k : SKey, (sort_samples_by_trailing_number paths).filter
        (fun p => decide (sampleKey p = k)) =
      paths.filter (fun p => decide (sampleKey p = k))) := by
  refine ⟨sortLe_perm _ paths, ?_, ?_⟩
  · exact sortLe_pairwise _
      (fun a b => keyLe_total (sampleKey a) (sampleKey b))
      (fun a b c => keyLe_trans (sampleKey a) (sampleKey b) (sampleKey c)) paths
  · intro k
    exact sortLe_filter_key sampleKey keyLe keyLe_refl paths k

/-- C8 counterexample: two files with the same trailing index 1.  The
claim's secondary alphabetical key would put `a 1.wav` first; the code
keeps the original order because indexed files are keyed by `(0, idx)`
alone and the sort is stable. -/
theorem sort_samples_stable_cex :
    sort_samples_by_trailing_number ["b 1.wav".toList, "a 1.wav".toList] =
      ["b 1.wav".toList, "a 1.wav".toList] ∧
    sort_samples_by_trailing_number ["b 1.wav".toList, "a 1.wav".toList] ≠
      ["a 1.wav".toList, "b 1.wav".toList] :=
  ⟨by decide, by decide⟩

-- ============================================================
-- Parsing (`common.py`: `parse_mapping_file`, `parse_midi_note_list`)
-- ============================================================

/-- `str.split(sep, 1)`: the part before the first occurrence of `c`
and the part after it (both empty tails when `c` is absent; callers
only use this when `c` occurs). -/
def splitFirst (c : Char) (l : List Char) : List Char × List Char :=
  (l.takeWhile (fun x => decide (x ≠ c)), (l.dropWhile (fun x => decide (x ≠ c))).drop 1)

/-- Python `int(str)`: strip whitespace, optional sign, at least one
digit; `none` models the `ValueError` raised otherwise. -/
def pyInt (s : List Char) : Option Int :=
  let t := pyStrip s
  match t with
  | '+' :: rest =>
    if rest ≠ [] ∧ rest.all Char.isDigit then some ((natOfDigits rest : Nat) : Int) else none
  | '-' :: rest =>
    if rest ≠ [] ∧ rest.all Char.isDigit then some (-((natOfDigits rest : Nat) : Int)) else none
  | _ =>
    if t ≠ [] ∧ t.all Char.isDigit then some ((natOfDigits t : Nat) : Int) else none

/-- `range(a, b + 1)` as used by the `a-b` expansion of
`parse_midi_note_list`. -/
def rangeIncl (a b : Int) : List Int :=
  if a ≤ b then (List.range (b + 1 - a).toNat).map (fun (k : Nat) => a + (k : Int)) else []

/-- Insert into a strictly ascending list, dropping duplicates.  Folded
over all parsed notes this embeds Python's `sorted(set(notes))`. -/
def insSortedDistinct (x : Int) : List Int → List Int
  | [] => [x]
  | y :: ys =>
    if x < y then x :: y :: ys else if x = y then y :: ys else y :: insSortedDistinct x ys

/-- `sorted(set(l))`. -/
def sortedDedup (l : List Int) : List Int :=
  l.foldl (fun acc x => insSortedDistinct x acc) []

/-- `parse_midi_note_list` from `common.py`: comma-separated tokens,
each either a plain integer or a range `a-b` expanded inclusively; the
collected set is returned sorted.  `none` models a `ValueError` from
`int()`. -/
def parse_midi_note_list (spec : List Char) : Option (List Int) :=
  let parts := ((splitOnChar ',' spec).map pyStrip).filter (· ≠ [])
  match parts.mapM (fun part =>
    if part.contains '-' then
      match pyInt (splitFirst '-' part).1, pyInt (splitFirst '-' part).2 with
      | some a, some b => some (rangeIncl a b)
      | _, _ => none
    else (pyInt part).map (fun n => [n])) with
  | some lists => some (sortedDedup lists.flatten)
  | none => none

/-- `MappingEntry` from `common.py`. -/
structure MappingEntry where
  canonical : String
  synonyms : List String
  midi_notes : Option (List Int)
deriving DecidableEq, Repr

/-- Result of processing one line of the mapping file. -/
inductive LineResult where
  | skip
  | entry (e : MappingEntry)
  | err
deriving DecidableEq, Repr

/-- The body of the line loop of `parse_mapping_file`: strip the line,
skip blank and `#` lines, split an optional `:` right side, build the
slash-separated synonym list (first token is canonical), and parse the
right side as a comma-separated list of plain integers via `int()` —
`err` models the exception Python raises (empty left side, or a
non-numeric note token). -/
def parse_mapping_line (raw : List Char) : LineResult :=
  let line := pyStrip raw
  if line = [] ∨ line.head? = some '#' then .skip
  else
    let leftRight : List Char × Option (List Char) :=
      if line.contains ':' then
        (lowerList (pyStrip (splitFirst ':' line).1), some (pyStrip (splitFirst ':' line).2))
      else (lowerList (pyStrip line), none)
    let synonyms := ((splitOnChar '/' leftRight.1).map pyStrip).filter (· ≠ [])
    match synonyms.head? with
    | none => .err
    | some canonical =>
      match leftRight.2 with
      | none => .entry ⟨String.mk canonical, synonyms.map String.mk, none⟩
      | some r =>
        if r = [] then .entry ⟨String.mk canonical, synonyms.map String.mk, some []⟩
        else
          let toks := ((splitOnChar ',' r).map pyStrip).filter (· ≠ [])
          match toks.mapM pyInt with
          | some ns => .entry ⟨String.mk canonical, synonyms.map String.mk, some ns⟩
          | none => .err

-- ============================================================
-- C9: note-range expansion, dedup, sort
-- ============================================================

theorem mem_rangeIncl (a b n : Int) : n ∈ rangeIncl a b ↔ a ≤ n ∧ n ≤ b := by
  unfold rangeIncl
  by_cases h : a ≤ b
  · rw [if_pos h]
    simp only [List.mem_map, List.mem_range]
    constructor
    · rintro ⟨k, hk, rfl⟩
      omega
    · intro ⟨h1, h2⟩
      exact ⟨(n - a).toNat, by omega, by omega⟩
  · rw [if_neg h]
    simp
    omega

theorem mem_insSortedDistinct (x z : Int) (l : List Int) :
    z ∈ insSortedDistinct x l ↔ z = x ∨ z ∈ l := by
  induction l with
  | nil => simp [insSortedDistinct]
  | cons y ys ih =>
    rw [insSortedDistinct]
    by_cases h1 : x < y
    · rw [if_pos h1]; simp
    · rw [if_neg h1]
      by_cases h2 : x = y
      · rw [if_pos h2]
        subst h2
        simp only [List.mem_cons]
        tauto
      · rw [if_neg h2]
        simp only [List.mem_cons, ih]
        tauto

theorem pairwise_insSortedDistinct (x : Int) (l : List Int)
    (h : List.Pairwise (fun a b => a < b) l) :
    List.Pairwise (fun a b => a < b) (insSortedDistinct x l) := by
  induction l with
  | nil => simp [insSortedDistinct]
  | cons y ys ih =>
    rcases List.pairwise_cons.mp h with ⟨hy, hys⟩
    rw [insSortedDistinct]
    by_cases h1 : x < y
    · rw [if_pos h1]
      refine List.pairwise_cons.mpr ⟨?_, h⟩
      intro z hz
      rcases List.mem_cons.mp hz with rfl | hz'
      · exact h1
      · exact h1.trans (hy z hz')
    · rw [if_neg h1]
      by_cases h2 : x = y
      · rw [if_pos h2]; exact h
      · rw [if_neg h2]
        refine List.pairwise_cons.mpr ⟨?_, ih hys⟩
        intro z hz
        rcases (mem_insSortedDistinct x z ys).mp hz with rfl | hz'
        · omega
        · exact hy z hz'

theorem pairwise_sortedDedup (l : List Int) :
    List.Pairwise (fun a b => a < b) (sortedDedup l) := by
  unfold sortedDedup
  suffices h : ∀ acc, List.Pairwise (fun a b : Int => a < b) acc →
      List.Pairwise (fun a b : Int => a < b)
        (l.foldl (fun acc x => insSortedDistinct x acc) acc) by
    exact h [] (by simp)
  induction l with
  | nil => intro acc hacc; exact hacc
  | cons x xs ih =>
    intro acc hacc
    exact ih (insSortedDistinct x acc) (pairwise_insSortedDistinct x acc hacc)

/-- C9 amended: range tokens `a-b` are handled by the trash-note list
parser `parse_midi_note_list`, where they expand to exactly the
integers `a..b` inclusive, and every successfully parsed note list is
strictly ascending (sorted with duplicates removed); concretely,
`2-5,4,3` parses to `[2, 3, 4, 5]`.  (The mapping-file parser rejects
range tokens; see the counterexample.) -/
theorem note_ranges_spec :
    (∀ a b n : Int, n ∈ rangeIncl a b ↔ a ≤ n ∧ n ≤ b) ∧
    (∀ (spec : List Char) (res : List Int),
      parse_midi_note_list spec = some res →
        List.Pairwise (fun a b => a < b) res) ∧
    parse_midi_note_list ("2-5,4,3".toList) = some [2, 3, 4, 5] := by
  refine ⟨mem_rangeIncl, ?_, by decide⟩
  intro spec res h
  unfold parse_midi_note_list at h
  dsimp only at h
  split at h
  · simp only [Option.some_inj] at h
    subst h
    exact pairwise_sortedDedup _
  · cases h

/-- Witness for C9 at concrete inputs. -/
theorem note_ranges_spec_witness :
    (3 : Int) ∈ rangeIncl 2 5 ∧
    List.Pairwise (fun a b : Int => a < b) [2, 3, 4, 5] :=
  ⟨(note_ranges_spec.1 2 5 3).mpr (by decide),
   note_ranges_spec.2.1 ("2-5,4,3".toList) [2, 3, 4, 5] note_ranges_spec.2.2⟩

/-- C9 counterexample: on a mapping-definition line the right side is
parsed with plain `int()`, so the range token `2-5` raises a
`ValueError` (modelled by `err`) instead of expanding to `[2,3,4,5]`
as the claim states. -/
theorem mapping_range_token_cex :
    parse_mapping_line ("kick:2-5".toList) = LineResult.err ∧
    parse_mapping_line ("kick:2-5".toList) ≠
      LineResult.entry ⟨"kick", ["kick"], some [2, 3, 4, 5]⟩ :=
  ⟨by decide, by decide⟩

-- ============================================================
-- Validation & filtering (`common.py`: `kit_stats`,
-- `category_capacity`, `filter_kits`)
-- ============================================================

/-- A kit's elements: the insertion-ordered dict category → files. -/
abbrev KitElements := List (String × List SPath)

/-- `dict.get` on the mapping table (unique keys: first match). -/
def lookupEntry (mapping : List MappingEntry) (cat : String) : Option MappingEntry :=
  mapping.find? (fun e => e.canonical = cat)

/-- `category_capacity` from `common.py`: `None` when the category is
unknown or has no declared note list, else (number of notes) × 8. -/
def category_capacity (mapping : List MappingEntry) (cat : String) : Option Nat :=
  match lookupEntry mapping cat with
  | none => none
  | some e =>
    match e.midi_notes with
    | none => none
    | some l => some (l.length * LAYER_LIMIT_PER_PAD)

/-- `kit_stats` from `common.py`. -/
structure KitStats where
  total : Nat
  only_other : Bool
  mixed_other : Bool
deriving Repr, DecidableEq

def kit_stats (elements : KitElements) : KitStats :=
  { total := (elements.map (fun cf => cf.2.length)).sum
  , only_other := (elements.map Prod.fst).contains "other" && decide (elements.length = 1)
  , mixed_other := (elements.map Prod.fst).contains "other" && decide (elements.length > 1) }

/-- One record of the `overflow_info` list of `filter_kits`. -/
structure OverflowInfo where
  category : String
  count : Nat
  capacity : Nat
deriving Repr, DecidableEq

/-- The `details` dict of a rejection (fields only present when set). -/
structure Details where
  trash_needed : Option Nat := none
  trash_capacity : Option Nat := none
  overflow : Option (List OverflowInfo) := none
  other_count : Option Nat := none
deriving Repr, DecidableEq

/-- The per-kit outcome of `filter_kits`: the kit lands in `valid`
with sorted elements, or in `rejected` with reason, details and its
original elements. -/
inductive Verdict where
  | accepted (elements : KitElements)
  | rejected (reason : String) (details : Details) (elements : KitElements)
deriving Repr, DecidableEq

/-- The threshold chain at the top of the `filter_kits` loop
(`too_few_samples` / `only_other` / `mixed_other`, first match). -/
def thresholdReason (stats : KitStats) (min_total : Nat)
    (exclude_only exclude_mixed : Bool) : Option String :=
  if stats.total < min_total then some ("too_few_samples")
  else if exclude_only && stats.only_other then some ("only_other")
  else if exclude_mixed && stats.mixed_other then some ("mixed_other")
  else none

/-- The `overflow_info` computation of `filter_kits`: every real
(non-`other`) category whose file count strictly exceeds its declared
capacity. -/
def overflowInfoOf (mapping : List MappingEntry) (elements : KitElements) :
    List OverflowInfo :=
  elements.filterMap fun cf =>
    if cf.1 = "other" then none
    else
      match category_capacity mapping cf.1 with
      | some cap => if cf.2.length > cap then some ⟨cf.1, cf.2.length, cap⟩ else none
      | none => none

/-- `len(elements.get("other", []))`. -/
def otherCount (elements : KitElements) : Nat :=
  (((elements.find? (fun cf => cf.1 = "other")).map Prod.snd).getD []).length

/-- `total_trash_needed`: summed per-category excess plus the count of
`other` files. -/
def trashNeeded (infos : List OverflowInfo) (other : Nat) : Nat :=
  (infos.map (fun i => i.count - i.capacity)).sum + other

/-- `len(trash_notes) * LAYER_LIMIT_PER_PAD if trash_notes else 0`
(`None` and the empty list are both falsy). -/
def trashCapacityOf (trash_notes : Option (List Int)) : Nat :=
  match trash_notes with
  | some l => if l = [] then 0 else l.length * LAYER_LIMIT_PER_PAD
  | none => 0

/-- The sorted per-category element lists an accepted kit receives. -/
def sortedElements (elements : KitElements) : KitElements :=
  elements.map (fun cf => (cf.1, sort_samples_by_trailing_number cf.2))

/-- The `overflow_info` list used by `filter_kit` (`if mapping:` —
absent mapping means no overflow computation). -/
def kitOverflowInfos (mapping : Option (List MappingEntry)) (elements : KitElements) :
    List OverflowInfo :=
  match mapping with
  | some m => overflowInfoOf m elements
  | none => []

/-- The reason/details decision of the overflow/other block of
`filter_kits`: policy `reject` overwrites any already-set threshold
reason with `overflow_or_other`; policy `trash` overwrites it with
`trash_zone_insufficient` when the needed count exceeds the trash
capacity; otherwise the threshold reason stands. -/
def overflowDecision (reason0 : Option String) (overflow_policy : String)
    (trash_notes : Option (List Int)) (needed : Nat) : Option String × Details :=
  if overflow_policy = "reject" then (some ("overflow_or_other"), {})
  else if overflow_policy = "trash" then
    if needed > trashCapacityOf trash_notes then
      (some ("trash_zone_insufficient"),
       { trash_needed := some needed, trash_capacity := some (trashCapacityOf trash_notes) })
    else (reason0, {})
  else (reason0, {})

/-- The body of the per-kit loop of `filter_kits`: threshold checks
first, then the overflow/other block whose decision may overwrite the
threshold reason, details attached on rejection, sorted elements on
acceptance. -/
def filter_kit (elements : KitElements) (min_total : Nat)
    (exclude_only exclude_mixed : Bool) (mapping : Option (List MappingEntry))
    (overflow_policy : String) (trash_notes : Option (List Int)) : Verdict :=
  let reason0 := thresholdReason (kit_stats elements) min_total exclude_only exclude_mixed
  let infos := kitOverflowInfos mapping elements
  let other := otherCount elements
  if infos ≠ [] ∨ other ≠ 0 then
    let rd := overflowDecision reason0 overflow_policy trash_notes (trashNeeded infos other)
    match rd.1 with
    | some r =>
      .rejected r { rd.2 with overflow := some infos, other_count := some other } elements
    | none => .accepted (sortedElements elements)
  else
    match reason0 with
    | some r => .rejected r {} elements
    | none => .accepted (sortedElements elements)

/-- The reason of a rejected verdict. -/
def reasonOf : Verdict → Option String
  | .accepted _ => none
  | .rejected r _ _ => some r

-- ============================================================
-- C3 / C5 / C7: filtering properties
-- ============================================================

theorem thresholdReason_none (stats : KitStats) (m : Nat) (eo em : Bool)
    (h : thresholdReason stats m eo em = none) :
    m ≤ stats.total ∧ (eo = true → stats.only_other = false) ∧
      (em = true → stats.mixed_other = false) := by
  unfold thresholdReason at h
  split_ifs at h with h1 h2 h3
  refine ⟨by omega, ?_, ?_⟩
  · intro he
    cases hoo : stats.only_other
    · rfl
    · exact absurd (by rw [he, hoo]; rfl) h2
  · intro he
    cases hmo : stats.mixed_other
    · rfl
    · exact absurd (by rw [he, hmo]; rfl) h3

theorem thresholdReason_some (stats : KitStats) (m : Nat) (eo em : Bool) (r : String)
    (h : thresholdReason stats m eo em = some r) :
    r = "too_few_samples" ∨ r = "only_other" ∨ r = "mixed_other" := by
  unfold thresholdReason at h
  split_ifs at h <;> simp only [Option.some_inj] at h <;> subst h <;> tauto

theorem overflowDecision_fst_none (r0 : Option String) (p : String)
    (t : Option (List Int)) (n : Nat)
    (h : (overflowDecision r0 p t n).1 = none) : r0 = none := by
  unfold overflowDecision at h
  split_ifs at h <;> simp_all

theorem overflowDecision_fst_some (r0 : Option String) (p : String)
    (t : Option (List Int)) (n : Nat) (r : String)
    (h : (overflowDecision r0 p t n).1 = some r) :
    r = "overflow_or_other" ∨ r = "trash_zone_insufficient" ∨ r0 = some r := by
  unfold overflowDecision at h
  split_ifs at h <;> simp_all

theorem overflowDecision_reject (r0 : Option String) (t : Option (List Int)) (n : Nat) :
    overflowDecision r0 "reject" t n = (some ("overflow_or_other"), {}) := by
  unfold overflowDecision
  rw [if_pos rfl]

theorem overflowDecision_trash_over (r0 : Option String) (t : Option (List Int)) (n : Nat)
    (h : n > trashCapacityOf t) :
    overflowDecision r0 "trash" t n =
      (some ("trash_zone_insufficient"),
       { trash_needed := some n, trash_capacity := some (trashCapacityOf t) }) := by
  unfold overflowDecision
  rw [if_neg (by decide), if_pos rfl, if_pos h]

theorem overflowDecision_trash_fits (r0 : Option String) (t : Option (List Int)) (n : Nat)
    (h : ¬ n > trashCapacityOf t) :
    overflowDecision r0 "trash" t n = (r0, {}) := by
  unfold overflowDecision
  rw [if_neg (by decide), if_pos rfl, if_neg h]

theorem trashNeeded_cond (infos : List OverflowInfo) (other cap : Nat)
    (h : trashNeeded infos other > cap) : infos ≠ [] ∨ other ≠ 0 := by
  by_contra hc
  push_neg at hc
  obtain ⟨h1, h2⟩ := hc
  subst h1 h2
  simp [trashNeeded] at h

/-- C3 counterexample: a kit that fails the minimum-total threshold
(1 sample < minimum 5) and also has an `other` file is reported with
reason `overflow_or_other`, not with the earlier threshold reason
`too_few_samples` — the overflow check overwrites the first-set
reason under policy `reject`. -/
theorem reject_reason_cex :
    (kit_stats [("other", [['x']])]).total < 5 ∧
    reasonOf (filter_kit [("other", [['x']])] 5 false false none "reject" none) ≠
      some ("too_few_samples") ∧
    reasonOf (filter_kit [("other", [['x']])] 5 false false none "reject" none) =
      some ("overflow_or_other") :=
  ⟨by decide, by decide, by decide⟩

/-- C3 amended: under overflow policy `reject`, whenever a kit has any
overflow or `other` files, the reported rejection reason is
`overflow_or_other`, even when a threshold reason (too few samples,
only-other or mixed-other) had already fired — the overflow check overwrites
the earlier reason (last-set wins, not first-set). -/
theorem reject_reason_overwrites (elements : KitElements) (min_total : Nat)
    (eo em : Bool) (mapping : Option (List MappingEntry)) (trash : Option (List Int))
    (h : kitOverflowInfos mapping elements ≠ [] ∨ otherCount elements ≠ 0) :
    reasonOf (filter_kit elements min_total eo em mapping "reject" trash) =
      some ("overflow_or_other") := by
  unfold filter_kit
  dsimp only
  rw [if_pos h, overflowDecision_reject]
  rfl

/-- Witness for C3 on the counterexample kit. -/
theorem reject_reason_overwrites_witness :
    (kitOverflowInfos none [("other", [['x']])] ≠ [] ∨
      otherCount [("other", [['x']])] ≠ 0) ∧
    reasonOf (filter_kit [("other", [['x']])] 5 false false none "reject" none) =
      some ("overflow_or_other") :=
  ⟨by decide, reject_reason_overwrites [("other", [['x']])] 5 false false none none (by decide)⟩

/-- C5: an accepted kit meets the minimum-total threshold, is neither
only-other nor mixed-other when the corresponding exclusion toggle is
enabled, and its element lists are the per-category sorted lists; a
rejected kit keeps its original elements and carries one of the five
reason codes. -/
theorem filter_accept_spec (elements : KitElements) (min_total : Nat)
    (eo em : Bool) (mapping : Option (List MappingEntry)) (policy : String)
    (trash : Option (List Int)) :
    (∀ sorted, filter_kit elements min_total eo em mapping policy trash =
        .accepted sorted →
      min_total ≤ (kit_stats elements).total ∧
      (eo = true → (kit_stats elements).only_other = false) ∧
      (em = true → (kit_stats elements).mixed_other = false) ∧
      sorted = sortedElements elements) ∧
    (∀ r d els, filter_kit elements min_total eo em mapping policy trash =
        .rejected r d els →
      els = elements ∧
      (r = "too_few_samples" ∨ r = "only_other" ∨ r = "mixed_other" ∨
       r = "overflow_or_other" ∨ r = "trash_zone_insufficient")) := by
  constructor
  · intro sorted h
    unfold filter_kit at h
    dsimp only at h
    by_cases hc : kitOverflowInfos mapping elements ≠ [] ∨ otherCount elements ≠ 0
    · rw [if_pos hc] at h
      rcases hr : (overflowDecision
          (thresholdReason (kit_stats elements) min_total eo em) policy trash
          (trashNeeded (kitOverflowInfos mapping elements) (otherCount elements))).1
        with _ | r
      · rw [hr] at h
        injection h with hs
        have h0 := overflowDecision_fst_none _ _ _ _ hr
        obtain ⟨h1, h2, h3⟩ := thresholdReason_none _ _ _ _ h0
        exact ⟨h1, h2, h3, hs.symm⟩
      · rw [hr] at h
        exact Verdict.noConfusion h
    · rw [if_neg hc] at h
      rcases hr : thresholdReason (kit_stats elements) min_total eo em with _ | r
      · rw [hr] at h
        injection h with hs
        obtain ⟨h1, h2, h3⟩ := thresholdReason_none _ _ _ _ hr
        exact ⟨h1, h2, h3, hs.symm⟩
      · rw [hr] at h
        exact Verdict.noConfusion h
  · intro r d els h
    unfold filter_kit at h
    dsimp only at h
    by_cases hc : kitOverflowInfos mapping elements ≠ [] ∨ otherCount elements ≠ 0
    · rw [if_pos hc] at h
      rcases hr : (overflowDecision
          (thresholdReason (kit_stats elements) min_total eo em) policy trash
          (trashNeeded (kitOverflowInfos mapping elements) (otherCount elements))).1
        with _ | r'
      · rw [hr] at h
        exact Verdict.noConfusion h
      · rw [hr] at h
        injection h with hrr _ hels
        subst hrr
        refine ⟨hels.symm, ?_⟩
        rcases overflowDecision_fst_some _ _ _ _ _ hr with h' | h' | h'
        · tauto
        · tauto
        · rcases thresholdReason_some _ _ _ _ _ h' with h'' | h'' | h'' <;> tauto
    · rw [if_neg hc] at h
      rcases hr : thresholdReason (kit_stats elements) min_total eo em with _ | r'
      · rw [hr] at h
        exact Verdict.noConfusion h
      · rw [hr] at h
        injection h with hrr _ hels
        subst hrr
        refine ⟨hels.symm, ?_⟩
        rcases thresholdReason_some _ _ _ _ _ hr with h'' | h'' | h'' <;> tauto

/-- Witness for C5: an accepted two-file kick kit. -/
theorem filter_accept_spec_witness :
    filter_kit [("kick", ["b 1.wav".toList, "a 1.wav".toList])] 1 true true
        (some [⟨"kick", ["kick"], some [36]⟩]) "reject" none =
      Verdict.accepted
        (sortedElements [("kick", ["b 1.wav".toList, "a 1.wav".toList])]) ∧
    (1 ≤ (kit_stats [("kick", ["b 1.wav".toList, "a 1.wav".toList])]).total ∧
     (true = true →
       (kit_stats [("kick", ["b 1.wav".toList, "a 1.wav".toList])]).only_other = false) ∧
     (true = true →
       (kit_stats [("kick", ["b 1.wav".toList, "a 1.wav".toList])]).mixed_other = false) ∧
     sortedElements [("kick", ["b 1.wav".toList, "a 1.wav".toList])] =
       sortedElements [("kick", ["b 1.wav".toList, "a 1.wav".toList])]) :=
  ⟨by decide,
   (filter_accept_spec [("kick", ["b 1.wav".toList, "a 1.wav".toList])] 1 true true
       (some [⟨"kick", ["kick"], some [36]⟩]) "reject" none).1
     (sortedElements [("kick", ["b 1.wav".toList, "a 1.wav".toList])]) (by decide)⟩

/-- C7: under policy `trash`, a kit whose overflow-plus-other count
exceeds the trash capacity (number of trash notes × 8) is rejected
with reason `trash_zone_insufficient` carrying the numeric needed
count and capacity in its details; a kit whose excess fits is never
rejected for overflow (any rejection is one of the threshold
reasons). -/
theorem trash_policy_spec (elements : KitElements) (min_total : Nat)
    (eo em : Bool) (mapping : Option (List MappingEntry)) (trash : Option (List Int)) :
    (trashNeeded (kitOverflowInfos mapping elements) (otherCount elements) >
        trashCapacityOf trash →
      filter_kit elements min_total eo em mapping "trash" trash =
        Verdict.rejected ("trash_zone_insufficient")
          { trash_needed :=
              some (trashNeeded (kitOverflowInfos mapping elements) (otherCount elements)),
            trash_capacity := some (trashCapacityOf trash),
            overflow := some (kitOverflowInfos mapping elements),
            other_count := some (otherCount elements) }
          elements) ∧
    (trashNeeded (kitOverflowInfos mapping elements) (otherCount elements) ≤
        trashCapacityOf trash →
      ∀ r d els, filter_kit elements min_total eo em mapping "trash" trash =
          .rejected r d els →
        (r = "too_few_samples" ∨ r = "only_other" ∨ r = "mixed_other")) := by
  constructor
  · intro h
    have hc := trashNeeded_cond _ _ _ h
    unfold filter_kit
    dsimp only
    rw [if_pos hc, overflowDecision_trash_over _ _ _ h]
  · intro h r d els hk
    unfold filter_kit at hk
    dsimp only at hk
    by_cases hc : kitOverflowInfos mapping elements ≠ [] ∨ otherCount elements ≠ 0
    · rw [if_pos hc, overflowDecision_trash_fits _ _ _ (by omega)] at hk
      rcases hr : thresholdReason (kit_stats elements) min_total eo em with _ | r'
      · rw [hr] at hk
        exact Verdict.noConfusion hk
      · rw [hr] at hk
        injection hk with hrr _ _
        subst hrr
        exact thresholdReason_some _ _ _ _ _ hr
    · rw [if_neg hc] at hk
      rcases hr : thresholdReason (kit_stats elements) min_total eo em with _ | r'
      · rw [hr] at hk
        exact Verdict.noConfusion hk
      · rw [hr] at hk
        injection hk with hrr _ _
        subst hrr
        exact thresholdReason_some _ _ _ _ _ hr

/-- Witness for C7: the spec scenario — an empty trash-note list and 2
excess (`other`) files yields `trash_zone_insufficient` with needed=2
and capacity=0. -/
theorem trash_policy_spec_witness :
    trashNeeded (kitOverflowInfos none [("other", [['x'], ['y']])])
        (otherCount [("other", [['x'], ['y']])]) >
      trashCapacityOf (some []) ∧
    filter_kit [("other", [['x'], ['y']])] 0 false false none "trash" (some []) =
      Verdict.rejected ("trash_zone_insufficient")
        { trash_needed := some 2, trash_capacity := some 0,
          overflow := some [], other_count := some 2 }
        [("other", [['x'], ['y']])] :=
  ⟨by decide,
   (trash_policy_spec [("other", [['x'], ['y']])] 0 false false none (some [])).1 (by decide)⟩

-- ============================================================
-- Assignment engine (`generate.py`: `assign_samples_to_notes`,
-- nested `push` / `push_trash`)
-- ============================================================

/-- The `note_to_samples` dict, as a total function: a note carries the
empty list exactly when it has no key (every push in the source appends
a non-empty chunk). -/
def NoteMap := Int → List SPath

def emptyNoteMap : NoteMap := fun _ => []

/-- The nested `push`: append `samples` under `note`. -/
def pushNote (m : NoteMap) (note : Int) (samples : List SPath) : NoteMap :=
  fun n => if n = note then m n ++ samples else m n

/-- The note list an entry contributes where the source tests
truthiness (`if entry.midi_notes:`) — `None` and `[]` contribute
nothing. -/
def truthyNotes (e : MappingEntry) : List Int :=
  match e.midi_notes with
  | some l => l
  | none => []

/-- `mapped_notes`: every note reserved by some mapping entry. -/
def mappedNotes (mapping : List MappingEntry) : List Int :=
  (mapping.map truthyNotes).flatten

/-- Warnings accumulated by the assignment engine. -/
inductive Warning where
  | overflowTruncated (category : String) (count : Nat)
  | droppedTrashFull (count : Nat)
deriving Repr, DecidableEq

/-- The loop of the nested `push_trash`: walk the trash pool
left-to-right, fill the head note up to its remaining capacity, pop it
once full (or already full), stop when the samples run out or the pool
is exhausted.  Returns the updated map, the remaining pool, and the
number of dropped samples (`len(samples) - idx` at loop exit). -/
def pushTrashGo : List Int → List SPath → NoteMap → NoteMap × List Int × Nat
  | [], samples, m => (m, [], samples.length)
  | note :: rest, samples, m =>
    if samples = [] then (m, note :: rest, 0)
    else
      let space := LAYER_LIMIT_PER_PAD - (m note).length
      if space = 0 then pushTrashGo rest samples m
      else if space ≤ samples.length then
        pushTrashGo rest (samples.drop space) (pushNote m note (samples.take space))
      else (pushNote m note (samples.take space), note :: rest, 0)

/-- The assignment engine's mutable state: `note_to_samples`, the
remaining `trash_pool`, and the `warnings` list. -/
structure AState where
  noteMap : NoteMap
  pool : List Int
  warnings : List Warning

/-- `push_trash(samples)`: run the loop and record a warning with the
dropped count when the pool was exhausted early. -/
def push_trash (samples : List SPath) (st : AState) : AState :=
  match pushTrashGo st.pool samples st.noteMap with
  | (m, pool, dropped) =>
    { noteMap := m, pool := pool,
      warnings :=
        if dropped > 0 then st.warnings ++ [Warning.droppedTrashFull dropped]
        else st.warnings }

/-- The per-category note walk: assign chunks of up to 8 files to each
reserved note in order (`break` once the files run out); returns the
updated map and the remaining files (`overflow = files[idx:]`). -/
def assignChunks (m : NoteMap) : List Int → List SPath → NoteMap × List SPath
  | [], files => (m, files)
  | note :: rest, files =>
    if files = [] then (m, [])
    else assignChunks (pushNote m note (files.take LAYER_LIMIT_PER_PAD)) rest
      (files.drop LAYER_LIMIT_PER_PAD)

/-- The notes a non-`other` category is assigned to:
`entry.midi_notes if entry and entry.midi_notes else []`. -/
def categoryNotes (mapping : List MappingEntry) (cat : String) : List Int :=
  match lookupEntry mapping cat with
  | some e => truthyNotes e
  | none => []

/-- One iteration of the category loop of `assign_samples_to_notes`:
`other` files go to the trash pool under policies `trash`/`ignore`
(and are dropped otherwise); a real category walks its reserved notes,
then routes overflow per policy (`truncate` warns and drops,
`trash`/`ignore` push to the trash pool, anything else drops). -/
def processCategory (mapping : List MappingEntry) (policy : String)
    (st : AState) (cf : String × List SPath) : AState :=
  if cf.1 = "other" then
    if policy = "trash" ∨ policy = "ignore" then push_trash cf.2 st else st
  else
    match assignChunks st.noteMap (categoryNotes mapping cf.1) cf.2 with
    | (m, overflow) =>
      let st' : AState := { st with noteMap := m }
      if overflow = [] then st'
      else if policy = "truncate" then
        { st' with
          warnings := st'.warnings ++ [Warning.overflowTruncated cf.1 overflow.length] }
      else if policy = "trash" ∨ policy = "ignore" then push_trash overflow st'
      else st'

/-- `assign_samples_to_notes` from `generate.py`: build the trash pool
(configured trash notes minus reserved notes), then fold the category
loop over the kit's insertion-ordered elements. -/
def assign_samples_to_notes (kit : KitElements) (mapping : List MappingEntry)
    (policy : String) (trash_notes : List Int) : NoteMap × List Warning :=
  let pool := trash_notes.filter (fun n => decide (n ∉ mappedNotes mapping))
  let st := kit.foldl (processCategory mapping policy)
    { noteMap := emptyNoteMap, pool := pool, warnings := [] }
  (st.noteMap, st.warnings)

-- ============================================================
-- C2 / C6: assignment-engine properties
-- ============================================================

theorem pushNote_self (m : NoteMap) (note : Int) (s : List SPath) :
    pushNote m note s note = m note ++ s := by
  simp [pushNote]

theorem pushNote_other (m : NoteMap) (note : Int) (s : List SPath) (n : Int)
    (h : n ≠ note) : pushNote m note s n = m n := by
  simp [pushNote, h]

theorem pushTrashGo_untouched :
    ∀ (pool : List Int) (samples : List SPath) (m : NoteMap) (n : Int),
      n ∉ pool → (pushTrashGo pool samples m).1 n = m n := by
  intro pool
  induction pool with
  | nil => intro samples m n _; rfl
  | cons note rest ih =>
    intro samples m n hn
    have hnnote : n ≠ note := fun h => hn (h ▸ List.mem_cons_self note rest)
    have hnrest : n ∉ rest := fun h => hn (List.mem_cons_of_mem note h)
    rw [pushTrashGo]
    by_cases hs : samples = []
    · rw [if_pos hs]
    · rw [if_neg hs]
      dsimp only
      by_cases hsp : LAYER_LIMIT_PER_PAD - (m note).length = 0
      · rw [if_pos hsp]
        exact ih samples m n hnrest
      · rw [if_neg hsp]
        by_cases hsl : LAYER_LIMIT_PER_PAD - (m note).length ≤ samples.length
        · rw [if_pos hsl]
          rw [ih _ _ n hnrest]
          simp [pushNote, hnnote]
        · rw [if_neg hsl]
          simp [pushNote, hnnote]

theorem pushTrashGo_le :
    ∀ (pool : List Int) (samples : List SPath) (m : NoteMap) (n : Int),
      (m n).length ≤ LAYER_LIMIT_PER_PAD →
      ((pushTrashGo pool samples m).1 n).length ≤ LAYER_LIMIT_PER_PAD := by
  intro pool
  induction pool with
  | nil => intro samples m n h; exact h
  | cons note rest ih =>
    intro samples m n h
    rw [pushTrashGo]
    by_cases hs : samples = []
    · rw [if_pos hs]; exact h
    · rw [if_neg hs]
      dsimp only
      by_cases hsp : LAYER_LIMIT_PER_PAD - (m note).length = 0
      · rw [if_pos hsp]
        exact ih samples m n h
      · rw [if_neg hsp]
        have hL8 : LAYER_LIMIT_PER_PAD = 8 := rfl
        by_cases hsl : LAYER_LIMIT_PER_PAD - (m note).length ≤ samples.length
        · rw [if_pos hsl]
          refine ih _ _ n ?_
          by_cases hnn : n = note
          · rw [hnn] at h ⊢
            rw [pushNote_self, List.length_append, List.length_take]
            omega
          · rw [pushNote_other _ _ _ _ hnn]
            exact h
        · rw [if_neg hsl]
          dsimp only
          by_cases hnn : n = note
          · rw [hnn] at h ⊢
            rw [pushNote_self, List.length_append, List.length_take]
            omega
          · rw [pushNote_other _ _ _ _ hnn]
            exact h

theorem pushTrashGo_dropped_le :
    ∀ (pool : List Int) (samples : List SPath) (m : NoteMap),
      (pushTrashGo pool samples m).2.2 ≤ samples.length := by
  intro pool
  induction pool with
  | nil => intro samples m; exact Nat.le_refl _
  | cons note rest ih =>
    intro samples m
    rw [pushTrashGo]
    by_cases hs : samples = []
    · rw [if_pos hs]; exact Nat.zero_le _
    · rw [if_neg hs]
      dsimp only
      by_cases hsp : LAYER_LIMIT_PER_PAD - (m note).length = 0
      · rw [if_pos hsp]
        exact ih samples m
      · rw [if_neg hsp]
        by_cases hsl : LAYER_LIMIT_PER_PAD - (m note).length ≤ samples.length
        · rw [if_pos hsl]
          have := ih (samples.drop (LAYER_LIMIT_PER_PAD - (m note).length))
            (pushNote m note (samples.take (LAYER_LIMIT_PER_PAD - (m note).length)))
          calc (pushTrashGo rest (samples.drop (LAYER_LIMIT_PER_PAD - (m note).length))
                (pushNote m note (samples.take (LAYER_LIMIT_PER_PAD - (m note).length)))).2.2
              ≤ (samples.drop (LAYER_LIMIT_PER_PAD - (m note).length)).length := this
            _ ≤ samples.length := by simp
        · rw [if_neg hsl]
          exact Nat.zero_le _

theorem pushTrashGo_suffix :
    ∀ (pool : List Int) (samples : List SPath) (m : NoteMap),
      (pushTrashGo pool samples m).2.1.IsSuffix pool := by
  intro pool
  induction pool with
  | nil => intro samples m; exact List.nil_suffix
  | cons note rest ih =>
    intro samples m
    rw [pushTrashGo]
    by_cases hs : samples = []
    · rw [if_pos hs]
    · rw [if_neg hs]
      dsimp only
      by_cases hsp : LAYER_LIMIT_PER_PAD - (m note).length = 0
      · rw [if_pos hsp]
        exact (ih samples m).trans (List.suffix_cons note rest)
      · rw [if_neg hsp]
        by_cases hsl : LAYER_LIMIT_PER_PAD - (m note).length ≤ samples.length
        · rw [if_pos hsl]
          exact (ih _ _).trans (List.suffix_cons note rest)
        · rw [if_neg hsl]

theorem pushTrashGo_dropped_pool :
    ∀ (pool : List Int) (samples : List SPath) (m : NoteMap),
      (pushTrashGo pool samples m).2.2 > 0 → (pushTrashGo pool samples m).2.1 = [] := by
  intro pool
  induction pool with
  | nil => intro samples m _; rfl
  | cons note rest ih =>
    intro samples m
    rw [pushTrashGo]
    by_cases hs : samples = []
    · rw [if_pos hs]; intro h; simp at h
    · rw [if_neg hs]
      dsimp only
      by_cases hsp : LAYER_LIMIT_PER_PAD - (m note).length = 0
      · rw [if_pos hsp]
        exact ih samples m
      · rw [if_neg hsp]
        by_cases hsl : LAYER_LIMIT_PER_PAD - (m note).length ≤ samples.length
        · rw [if_pos hsl]
          exact ih _ _
        · rw [if_neg hsl]
          intro h; simp at h

theorem flatten_nil_of_forall {α β : Type} (l : List α) (f : α → List β)
    (h : ∀ x ∈ l, f x = []) : (l.map f).flatten = [] := by
  induction l with
  | nil => rfl
  | cons x xs ih =>
    rw [List.map_cons, List.flatten_cons, h x (List.mem_cons_self x xs),
      List.nil_append]
    exact ih (fun y hy => h y (List.mem_cons_of_mem x hy))

theorem pushTrashGo_flatten :
    ∀ (pool : List Int) (samples : List SPath) (m : NoteMap), pool.Nodup →
      (pool.map fun n => ((pushTrashGo pool samples m).1 n).drop (m n).length).flatten =
        samples.take (samples.length - (pushTrashGo pool samples m).2.2) := by
  intro pool
  induction pool with
  | nil =>
    intro samples m _
    simp [pushTrashGo]
  | cons note rest ih =>
    intro samples m hnd
    have hnote : note ∉ rest := (List.nodup_cons.mp hnd).1
    have hrest : rest.Nodup := (List.nodup_cons.mp hnd).2
    rw [pushTrashGo]
    by_cases hs : samples = []
    · rw [if_pos hs]
      subst hs
      rw [List.take_nil]
      refine flatten_nil_of_forall _ _ ?_
      intro x _
      exact List.drop_length _
    · rw [if_neg hs]
      dsimp only
      by_cases hsp : LAYER_LIMIT_PER_PAD - (m note).length = 0
      · rw [if_pos hsp]
        rw [List.map_cons, List.flatten_cons,
          pushTrashGo_untouched rest samples m note hnote, List.drop_length,
          List.nil_append]
        exact ih samples m hrest
      · rw [if_neg hsp]
        by_cases hsl : LAYER_LIMIT_PER_PAD - (m note).length ≤ samples.length
        · rw [if_pos hsl]
          set sp := LAYER_LIMIT_PER_PAD - (m note).length with hspdef
          set m1 := pushNote m note (samples.take sp) with hm1def
          rw [List.map_cons, List.flatten_cons]
          rw [pushTrashGo_untouched rest (samples.drop sp) m1 note hnote]
          have hm1note : m1 note = m note ++ samples.take sp := by
            rw [hm1def]; exact pushNote_self _ _ _
          rw [hm1note, List.drop_left' rfl]
          have heq : ∀ n ∈ rest,
              ((pushTrashGo rest (samples.drop sp) m1).1 n).drop (m n).length =
              ((pushTrashGo rest (samples.drop sp) m1).1 n).drop (m1 n).length := by
            intro n hn
            have hne : n ≠ note := fun h => hnote (h ▸ hn)
            rw [hm1def, pushNote_other _ _ _ _ hne]
          rw [List.map_congr_left heq, ih _ _ hrest]
          have hd := pushTrashGo_dropped_le rest (samples.drop sp) m1
          rw [List.length_drop] at hd ⊢
          rw [← List.take_add]
          congr 1
          omega
        · rw [if_neg hsl]
          dsimp only
          rw [List.map_cons, List.flatten_cons, pushNote_self, List.drop_left' rfl]
          have hrest0 : (rest.map fun n =>
              ((pushNote m note (samples.take (LAYER_LIMIT_PER_PAD - (m note).length))) n).drop
                (m n).length).flatten = [] := by
            refine flatten_nil_of_forall _ _ ?_
            intro x hx
            have : x ≠ note := fun h => hnote (h ▸ hx)
            rw [pushNote_other _ _ _ _ this]
            exact List.drop_length _
          rw [hrest0, List.append_nil, Nat.sub_zero, List.take_length,
            List.take_of_length_le (by omega)]

theorem pushTrashGo_pairwise :
    ∀ (pool : List Int) (samples : List SPath) (m : NoteMap), pool.Nodup →
      (∀ n ∈ pool, (m n).length ≤ LAYER_LIMIT_PER_PAD) →
      List.Pairwise (fun a b => (pushTrashGo pool samples m).1 b ≠ m b →
        LAYER_LIMIT_PER_PAD ≤ ((pushTrashGo pool samples m).1 a).length) pool := by
  intro pool
  induction pool with
  | nil => intro samples m _ _; exact List.Pairwise.nil
  | cons note rest ih =>
    intro samples m hnd hle
    have hnote : note ∉ rest := (List.nodup_cons.mp hnd).1
    have hrest : rest.Nodup := (List.nodup_cons.mp hnd).2
    rw [pushTrashGo]
    by_cases hs : samples = []
    · rw [if_pos hs]
      refine List.pairwise_of_forall_mem_list ?_
      intro a _ b _ hb
      exact absurd rfl hb
    · rw [if_neg hs]
      dsimp only
      by_cases hsp : LAYER_LIMIT_PER_PAD - (m note).length = 0
      · rw [if_pos hsp]
        refine List.pairwise_cons.mpr ⟨?_, ?_⟩
        · intro b _ _
          rw [pushTrashGo_untouched rest samples m note hnote]
          omega
        · exact ih samples m hrest (fun n hn => hle n (List.mem_cons_of_mem note hn))
      · rw [if_neg hsp]
        by_cases hsl : LAYER_LIMIT_PER_PAD - (m note).length ≤ samples.length
        · rw [if_pos hsl]
          set sp := LAYER_LIMIT_PER_PAD - (m note).length with hspdef
          set m1 := pushNote m note (samples.take sp) with hm1def
          refine List.pairwise_cons.mpr ⟨?_, ?_⟩
          · intro b _ _
            rw [pushTrashGo_untouched rest (samples.drop sp) m1 note hnote]
            have hm1note : m1 note = m note ++ samples.take sp := by
              rw [hm1def]; exact pushNote_self _ _ _
            rw [hm1note, List.length_append, List.length_take]
            have := hle note (List.mem_cons_self note rest)
            omega
          · have hle1 : ∀ n ∈ rest, (m1 n).length ≤ LAYER_LIMIT_PER_PAD := by
              intro n hn
              have hne : n ≠ note := fun h => hnote (h ▸ hn)
              rw [hm1def, pushNote_other _ _ _ _ hne]
              exact hle n (List.mem_cons_of_mem note hn)
            refine List.Pairwise.imp_of_mem ?_ (ih (samples.drop sp) m1 hrest hle1)
            intro a b ha hb h1 h2
            have hbne : b ≠ note := fun h => hnote (h ▸ hb)
            have : m1 b = m b := by rw [hm1def]; exact pushNote_other _ _ _ _ hbne
            exact h1 (by rw [this]; exact h2)
        · rw [if_neg hsl]
          dsimp only
          refine List.pairwise_cons.mpr ⟨?_, ?_⟩
          · intro b hb hne
            have hbne : b ≠ note := fun h => hnote (h ▸ hb)
            exact absurd (pushNote_other _ _ _ _ hbne) hne
          · refine List.pairwise_of_forall_mem_list ?_
            intro a ha b hb hne
            have hbne : b ≠ note := fun h => hnote (h ▸ hb)
            exact absurd (pushNote_other _ _ _ _ hbne) hne

theorem push_trash_eq (pool : List Int) (samples : List SPath) (m : NoteMap)
    (ws : List Warning) :
    push_trash samples ⟨m, pool, ws⟩ =
      { noteMap := (pushTrashGo pool samples m).1,
        pool := (pushTrashGo pool samples m).2.1,
        warnings :=
          if (pushTrashGo pool samples m).2.2 > 0 then
            ws ++ [Warning.droppedTrashFull (pushTrashGo pool samples m).2.2]
          else ws } := rfl

/-- C6: trash placement is order-preserving and capacity-driven: at
most `len(samples)` files are dropped; reading the trash notes in pool
order, the newly appended chunks concatenate to exactly the first
`len(samples) - dropped` pushed files in push order; a pool note
receives files only after every earlier pool note is full (8 entries);
the pool is only ever consumed from the left (the remaining pool is a
suffix, so an exhausted note is never revisited); files are dropped
only when the whole pool is exhausted; and the wrapper records a
`Dropped n` warning exactly when `n > 0` files were dropped. -/
theorem push_trash_spec (pool : List Int) (samples : List SPath) (m : NoteMap)
    (ws : List Warning) (hnd : pool.Nodup)
    (hle : ∀ n ∈ pool, (m n).length ≤ LAYER_LIMIT_PER_PAD) :
    (pushTrashGo pool samples m).2.2 ≤ samples.length ∧
    ((pool.map fun n => ((pushTrashGo pool samples m).1 n).drop (m n).length).flatten =
      samples.take (samples.length - (pushTrashGo pool samples m).2.2)) ∧
    List.Pairwise (fun a b => (pushTrashGo pool samples m).1 b ≠ m b →
      LAYER_LIMIT_PER_PAD ≤ ((pushTrashGo pool samples m).1 a).length) pool ∧
    (pushTrashGo pool samples m).2.1.IsSuffix pool ∧
    ((pushTrashGo pool samples m).2.2 > 0 → (pushTrashGo pool samples m).2.1 = []) ∧
    push_trash samples ⟨m, pool, ws⟩ =
      { noteMap := (pushTrashGo pool samples m).1,
        pool := (pushTrashGo pool samples m).2.1,
        warnings :=
          if (pushTrashGo pool samples m).2.2 > 0 then
            ws ++ [Warning.droppedTrashFull (pushTrashGo pool samples m).2.2]
          else ws } :=
  ⟨pushTrashGo_dropped_le pool samples m,
   pushTrashGo_flatten pool samples m hnd,
   pushTrashGo_pairwise pool samples m hnd hle,
   pushTrashGo_suffix pool samples m,
   pushTrashGo_dropped_pool pool samples m,
   push_trash_eq pool samples m ws⟩

/-- Witness for C6: two trash notes and ten pushed files. -/
theorem push_trash_spec_witness :
    (([90, 91] : List Int).Nodup ∧
      ∀ n ∈ ([90, 91] : List Int), (emptyNoteMap n).length ≤ LAYER_LIMIT_PER_PAD) ∧
    (pushTrashGo [90, 91] (List.replicate 10 (['a'] : SPath)) emptyNoteMap).2.2 ≤
      (List.replicate 10 (['a'] : SPath)).length :=
  ⟨⟨by decide, by decide⟩,
   (push_trash_spec [90, 91] (List.replicate 10 (['a'] : SPath)) emptyNoteMap []
     (by decide) (by decide)).1⟩

theorem assignChunks_untouched :
    ∀ (notes : List Int) (files : List SPath) (m : NoteMap) (n : Int),
      n ∉ notes → (assignChunks m notes files).1 n = m n := by
  intro notes
  induction notes with
  | nil => intro files m n _; rfl
  | cons note rest ih =>
    intro files m n hn
    have hnnote : n ≠ note := fun h => hn (h ▸ List.mem_cons_self note rest)
    have hnrest : n ∉ rest := fun h => hn (List.mem_cons_of_mem note h)
    rw [assignChunks]
    by_cases hf : files = []
    · rw [if_pos hf]
    · rw [if_neg hf]
      rw [ih _ _ n hnrest]
      exact pushNote_other _ _ _ _ hnnote

theorem assignChunks_le :
    ∀ (notes : List Int) (files : List SPath) (m : NoteMap),
      notes.Nodup → (∀ x ∈ notes, m x = []) →
      ∀ n ∈ notes, ((assignChunks m notes files).1 n).length ≤ LAYER_LIMIT_PER_PAD := by
  intro notes
  induction notes with
  | nil => intro files m _ _ n hn; cases hn
  | cons note rest ih =>
    intro files m hnd hfresh n hn
    have hnote : note ∉ rest := (List.nodup_cons.mp hnd).1
    have hrest : rest.Nodup := (List.nodup_cons.mp hnd).2
    rw [assignChunks]
    by_cases hf : files = []
    · rw [if_pos hf]
      dsimp only
      rw [hfresh n hn]
      exact Nat.zero_le _
    · rw [if_neg hf]
      rcases List.mem_cons.mp hn with rfl | hn'
      · rw [assignChunks_untouched rest _ _ n hnote, pushNote_self,
          hfresh n (List.mem_cons_self n rest), List.nil_append]
        have hL8 : LAYER_LIMIT_PER_PAD = 8 := rfl
        rw [List.length_take]
        omega
      · refine ih _ _ hrest ?_ n hn'
        intro x hx
        have hxne : x ≠ note := fun h => hnote (h ▸ hx)
        rw [pushNote_other _ _ _ _ hxne]
        exact hfresh x (List.mem_cons_of_mem note hx)

theorem categoryNotes_sub_mapped (mapping : List MappingEntry) (cat : String)
    (n : Int) (h : n ∈ categoryNotes mapping cat) : n ∈ mappedNotes mapping := by
  unfold categoryNotes at h
  rcases hl : lookupEntry mapping cat with _ | e
  · rw [hl] at h; cases h
  · rw [hl] at h
    exact List.mem_flatten.mpr
      ⟨truthyNotes e,
       List.mem_map_of_mem truthyNotes (List.mem_of_find?_eq_some hl), h⟩

theorem categoryNotes_nodup (mapping : List MappingEntry) (cat : String)
    (hnotes : (mappedNotes mapping).Nodup) : (categoryNotes mapping cat).Nodup := by
  unfold categoryNotes
  rcases hl : lookupEntry mapping cat with _ | e
  · exact List.nodup_nil
  · exact (List.nodup_flatten.mp hnotes).1 (truthyNotes e)
      (List.mem_map_of_mem truthyNotes (List.mem_of_find?_eq_some hl))

theorem categoryNotes_disjoint (mapping : List MappingEntry) (c1 c2 : String)
    (hnotes : (mappedNotes mapping).Nodup) (hne : c1 ≠ c2) (n : Int)
    (h1 : n ∈ categoryNotes mapping c1) : n ∉ categoryNotes mapping c2 := by
  intro h2
  unfold categoryNotes at h1 h2
  rcases hl1 : lookupEntry mapping c1 with _ | e1
  · rw [hl1] at h1; cases h1
  rcases hl2 : lookupEntry mapping c2 with _ | e2
  · rw [hl2] at h2; cases h2
  rw [hl1] at h1
  rw [hl2] at h2
  have hc1 : e1.canonical = c1 := by
    have := List.find?_some hl1
    simpa using this
  have hc2 : e2.canonical = c2 := by
    have := List.find?_some hl2
    simpa using this
  have hee : e1 ≠ e2 := by
    intro h
    exact hne (hc1 ▸ h ▸ hc2)
  have hpw : mapping.Pairwise
      (fun e f => List.Disjoint (truthyNotes e) (truthyNotes f)) :=
    List.pairwise_map.mp (List.nodup_flatten.mp hnotes).2
  have hsym : Symmetric (fun e f : MappingEntry =>
      List.Disjoint (truthyNotes e) (truthyNotes f)) :=
    fun e f h => h.symm
  exact List.Pairwise.forall hsym hpw
    (List.mem_of_find?_eq_some hl1) (List.mem_of_find?_eq_some hl2) hee h1 h2

/-- The fold invariant of the assignment engine: every note holds at
most 8 files; pool notes are configured trash notes not reserved by
any category; every non-empty note is reserved or trash; and the notes
of every not-yet-processed real category are still empty. -/
def StInv (mapping : List MappingEntry) (trash : List Int)
    (rest : KitElements) (st : AState) : Prop :=
  (∀ n, (st.noteMap n).length ≤ LAYER_LIMIT_PER_PAD) ∧
  (∀ n ∈ st.pool, n ∈ trash ∧ n ∉ mappedNotes mapping) ∧
  (∀ n, st.noteMap n ≠ [] → n ∈ mappedNotes mapping ∨ n ∈ trash) ∧
  (∀ cf ∈ rest, cf.1 ≠ "other" →
    ∀ n ∈ categoryNotes mapping cf.1, st.noteMap n = [])

theorem StInv_tail (mapping : List MappingEntry) (trash : List Int)
    (cf : String × List SPath) (rest : KitElements) (st : AState)
    (h : StInv mapping trash (cf :: rest) st) : StInv mapping trash rest st :=
  ⟨h.1, h.2.1, h.2.2.1,
   fun r hr => h.2.2.2 r (List.mem_cons_of_mem cf hr)⟩

theorem push_trash_inv (mapping : List MappingEntry) (trash : List Int)
    (rest : KitElements) (samples : List SPath) (st : AState)
    (hinv : StInv mapping trash rest st) :
    StInv mapping trash rest (push_trash samples st) := by
  obtain ⟨h1, h2, h3, h4⟩ := hinv
  rw [push_trash_eq st.pool samples st.noteMap st.warnings]
  refine ⟨?_, ?_, ?_, ?_⟩
  · intro n
    exact pushTrashGo_le st.pool samples st.noteMap n (h1 n)
  · intro n hn
    exact h2 n ((pushTrashGo_suffix st.pool samples st.noteMap).sublist.subset hn)
  · intro n hn
    dsimp only at hn
    by_cases hp : n ∈ st.pool
    · exact Or.inr (h2 n hp).1
    · rw [pushTrashGo_untouched st.pool samples st.noteMap n hp] at hn
      exact h3 n hn
  · intro cf hcf hne n hnc
    dsimp only
    have hm : n ∈ mappedNotes mapping := categoryNotes_sub_mapped mapping cf.1 n hnc
    have hp : n ∉ st.pool := fun hp => (h2 n hp).2 hm
    rw [pushTrashGo_untouched st.pool samples st.noteMap n hp]
    exact h4 cf hcf hne n hnc

theorem assignChunks_inv (mapping : List MappingEntry) (trash : List Int)
    (rest : KitElements) (cf : String × List SPath) (st : AState)
    (hnotes : (mappedNotes mapping).Nodup)
    (ho : cf.1 ≠ "other")
    (hkey : ∀ r ∈ rest, r.1 ≠ cf.1)
    (hinv : StInv mapping trash (cf :: rest) st) :
    StInv mapping trash rest
      { st with noteMap := (assignChunks st.noteMap (categoryNotes mapping cf.1) cf.2).1 } := by
  obtain ⟨h1, h2, h3, h4⟩ := hinv
  have hfresh : ∀ x ∈ categoryNotes mapping cf.1, st.noteMap x = [] :=
    h4 cf (List.mem_cons_self cf rest) ho
  have hnd := categoryNotes_nodup mapping cf.1 hnotes
  refine ⟨?_, ?_, ?_, ?_⟩
  · intro n
    dsimp only
    by_cases hn : n ∈ categoryNotes mapping cf.1
    · exact assignChunks_le _ _ _ hnd hfresh n hn
    · rw [assignChunks_untouched _ _ _ n hn]
      exact h1 n
  · intro n hn
    exact h2 n hn
  · intro n hn
    dsimp only at hn
    by_cases hc : n ∈ categoryNotes mapping cf.1
    · exact Or.inl (categoryNotes_sub_mapped mapping cf.1 n hc)
    · rw [assignChunks_untouched _ _ _ n hc] at hn
      exact h3 n hn
  · intro r hr hro n hnc
    dsimp only
    have hnn : n ∉ categoryNotes mapping cf.1 :=
      categoryNotes_disjoint mapping r.1 cf.1 hnotes (hkey r hr) n hnc
    rw [assignChunks_untouched _ _ _ n hnn]
    exact h4 r (List.mem_cons_of_mem cf hr) hro n hnc

theorem processCategory_inv (mapping : List MappingEntry) (trash : List Int)
    (policy : String) (cf : String × List SPath) (rest : KitElements) (st : AState)
    (hnotes : (mappedNotes mapping).Nodup)
    (hkey : ∀ r ∈ rest, r.1 ≠ cf.1)
    (hinv : StInv mapping trash (cf :: rest) st) :
    StInv mapping trash rest (processCategory mapping policy st cf) := by
  unfold processCategory
  by_cases ho : cf.1 = "other"
  · rw [if_pos ho]
    by_cases hp : policy = "trash" ∨ policy = "ignore"
    · rw [if_pos hp]
      exact push_trash_inv mapping trash rest cf.2 st
        (StInv_tail mapping trash cf rest st hinv)
    · rw [if_neg hp]
      exact StInv_tail mapping trash cf rest st hinv
  · rw [if_neg ho]
    have hbase := assignChunks_inv mapping trash rest cf st hnotes ho hkey hinv
    rcases hA : assignChunks st.noteMap (categoryNotes mapping cf.1) cf.2
      with ⟨m1, overflow⟩
    rw [hA] at hbase
    dsimp only
    by_cases hov : overflow = []
    · rw [if_pos hov]
      exact hbase
    · rw [if_neg hov]
      by_cases htr : policy = "truncate"
      · rw [if_pos htr]
        exact ⟨hbase.1, hbase.2.1, hbase.2.2.1, hbase.2.2.2⟩
      · rw [if_neg htr]
        by_cases hp : policy = "trash" ∨ policy = "ignore"
        · rw [if_pos hp]
          exact push_trash_inv mapping trash rest overflow _ hbase
        · rw [if_neg hp]
          exact hbase

theorem foldl_inv (mapping : List MappingEntry) (trash : List Int) (policy : String) :
    ∀ (kit : KitElements) (st : AState),
      List.Pairwise (fun a b => a.1 ≠ b.1) kit →
      (mappedNotes mapping).Nodup →
      StInv mapping trash kit st →
      StInv mapping trash [] (kit.foldl (processCategory mapping policy) st) := by
  intro kit
  induction kit with
  | nil => intro st _ _ h; exact h
  | cons cf rest ih =>
    intro st hkit hnotes hinv
    rw [List.foldl_cons]
    refine ih _ (List.pairwise_cons.mp hkit).2 hnotes ?_
    refine processCategory_inv mapping trash policy cf rest st hnotes ?_ hinv
    intro r hr
    exact ((List.pairwise_cons.mp hkit).1 r hr).symm

/-- C2 amended: provided every MIDI note appears at most once across
the mapping's note lists and the kit's category keys are distinct
(both true for data produced by the parsers, which deduplicate nothing
across entries — see the counterexample for what happens otherwise),
the assignment engine places at most 8 files under any single MIDI
note, and every note holding at least one file is either reserved by
some mapping entry or a member of the configured trash-note list. -/
theorem assign_notes_bounded (kit : KitElements) (mapping : List MappingEntry)
    (policy : String) (trash : List Int)
    (hkit : List.Pairwise (fun a b => a.1 ≠ b.1) kit)
    (hnotes : (mappedNotes mapping).Nodup) :
    (∀ note, ((assign_samples_to_notes kit mapping policy trash).1 note).length ≤
      LAYER_LIMIT_PER_PAD) ∧
    (∀ note, (assign_samples_to_notes kit mapping policy trash).1 note ≠ [] →
      note ∈ mappedNotes mapping ∨ note ∈ trash) := by
  have hinv0 : StInv mapping trash kit
      { noteMap := emptyNoteMap,
        pool := trash.filter (fun n => decide (n ∉ mappedNotes mapping)),
        warnings := [] } := by
    refine ⟨?_, ?_, ?_, ?_⟩
    · intro n; exact Nat.zero_le _
    · intro n hn
      have := List.mem_filter.mp hn
      exact ⟨this.1, of_decide_eq_true this.2⟩
    · intro n hn
      exact absurd rfl hn
    · intro cf _ _ n _
      rfl
  have hf := foldl_inv mapping trash policy kit _ hkit hnotes hinv0
  exact ⟨hf.1, hf.2.2.1⟩

/-- C2 counterexample: the mapping line `kick:36,36` yields the entry
`⟨kick, [36, 36]⟩` (the mapping parser does not deduplicate), and a
9-file kick kit then puts 9 files under note 36 — more than 8. -/
theorem assign_notes_over_limit_cex :
    ((assign_samples_to_notes [("kick", List.replicate 9 (['a'] : SPath))]
        [⟨"kick", ["kick"], some [36, 36]⟩] "reject" []).1 36).length = 9 ∧
    ¬ (((assign_samples_to_notes [("kick", List.replicate 9 (['a'] : SPath))]
        [⟨"kick", ["kick"], some [36, 36]⟩] "reject" []).1 36).length ≤
      LAYER_LIMIT_PER_PAD) :=
  ⟨by decide, by decide⟩

/-- Witness for C2: a ten-file kick kit under a two-note mapping with a
trash note. -/
theorem assign_notes_bounded_witness :
    (List.Pairwise (fun a b => a.1 ≠ b.1)
      ([("kick", List.replicate 10 (['a'] : SPath))] : KitElements) ∧
     (mappedNotes [⟨"kick", ["kick"], some [36, 37]⟩]).Nodup) ∧
    ((assign_samples_to_notes [("kick", List.replicate 10 (['a'] : SPath))]
        [⟨"kick", ["kick"], some [36, 37]⟩] "trash" [90]).1 36).length ≤
      LAYER_LIMIT_PER_PAD :=
  ⟨⟨by decide, by decide⟩,
   (assign_notes_bounded [("kick", List.replicate 10 (['a'] : SPath))]
     [⟨"kick", ["kick"], some [36, 37]⟩] "trash" [90]
     (by decide) (by decide)).1 36⟩
